import Mathlib

/-
Verification development for the nx_csv record mapping layer.

Reader side: the numbering loop of reader_gen and the Writer class are
embedded directly from src/nx_csv/__init__.py.  The per-record
reconciliation (rdr_utils.dict_reader / obj_reader) and the minimizing
header-deferral writer (wrtr_utils.HeaderMixin and friends) live in the
external nx_rdr_wrtr package, whose code is not part of this repository;
those parts are modelled from the specification (sections 3, 4.2, 4.5)
and cross-checked against the doctests that src/nx_csv/__init__.py runs
against them.
-/

namespace NxCsv

/-- One logical parsed row: the ordered string fields together with the
line number assigned by the reader.  Embeds the `Line` class built inside
`reader_gen` (src/nx_csv/__init__.py lines 47-49): a list of fields
carrying a `line_num` attribute. -/
structure Line where
  fields : List String
  lineNum : Nat
deriving Repr, DecidableEq

/-- Embeds the numbering loop of `reader_gen` (src lines 62-66).  The
input is the tokenizer output: each logical record paired with the
cumulative raw-line count the tokenizer reports after reading it (Python
`csv.reader.line_num`).  The loop keeps the previous cumulative count in
`last_end` (initially 0) and assigns `last_end + 1` as the line number of
the current record. -/
def readerGenGo (lastEnd : Nat) : List (List String × Nat) → List Line
  | [] => []
  | (rec, lineEnd) :: rest => ⟨rec, lastEnd + 1⟩ :: readerGenGo lineEnd rest

/-- Full numbering pass of `reader_gen`: `last_end` starts at 0. -/
def readerGenNumber (recs : List (List String × Nat)) : List Line :=
  readerGenGo 0 recs

/-- Drop leading whitespace characters. -/
def dropLeadingWs (cs : List Char) : List Char :=
  cs.dropWhile (fun c => c.isWhitespace)

/-- Drop trailing whitespace characters. -/
def dropTrailingWs (cs : List Char) : List Char :=
  (cs.reverse.dropWhile (fun c => c.isWhitespace)).reverse

/-- Modelled from the spec: the field whitespace policy of the list
mapper (section 4.1, implemented by the external rdr_utils.list_reader).
Leading whitespace is stripped unless `leadingWs` is set, trailing
whitespace is stripped unless `trailingWs` is set. -/
def stripField (leadingWs trailingWs : Bool) (s : String) : String :=
  let cs0 := s.toList
  let cs1 := if leadingWs then cs0 else dropLeadingWs cs0
  let cs2 := if trailingWs then cs1 else dropTrailingWs cs1
  String.mk cs2

/-- Modelled from the spec: the list-mapper stage (section 4.1,
implemented by the external rdr_utils.list_reader): blank records are
skipped when `ignoreBlanks`, every field is stripped per the whitespace
policy, line numbers pass through unchanged. -/
def listMapper (leadingWs trailingWs ignoreBlanks : Bool) (recs : List Line) :
    List Line :=
  recs.filterMap (fun r =>
    if ignoreBlanks ∧ r.fields = [] then none
    else some ⟨r.fields.map (stripField leadingWs trailingWs), r.lineNum⟩)

/-- Direction tag of an arity mismatch: too few or too many fields. -/
inductive ArityTag
  | insufficient
  | tooMany
deriving Repr, DecidableEq

/-- Arity error payload: direction tag, observed line number, expected
field count, actual field count — the components of the ValueError tuple
shown by the doctests of dict_reader (src lines 145-160):
ValueError with arguments (tag, line, expected, actual). -/
structure ArityError where
  tag : ArityTag
  lineNum : Nat
  expected : Nat
  actual : Nat
deriving Repr, DecidableEq

/-- Synthesized rest pairs: each extra value is bound under the key
`p ++ index`, with the index counting extras from `start`. -/
def synthPairs (p : String) (start : Nat) : List String → List (String × String)
  | [] => []
  | v :: vs => (p ++ toString start, v) :: synthPairs p (start + 1) vs

/-- Modelled from the spec: the reconciliation policy of section 3
(implemented by the external rdr_utils.dict_reader).  With `m` the row
field count and `n` the name count: equal counts zip names to values;
`m < n` binds the missing trailing names to the rest value when
configured, otherwise fails with an insufficient-fields arity error;
`m > n` binds each extra value under a synthesized key (rest key plus
index starting at 0) appended after the named fields when a rest key is
configured, otherwise fails with a too-many-fields arity error.  The
doctests of dict_reader (src lines 145-165) pin down the error payload
and the synthesized key shape. -/
def reconcile (names : List String) (restKey restVal : Option String)
    (r : Line) : Except ArityError (List (String × String)) :=
  let m := r.fields.length
  let n := names.length
  if m = n then Except.ok (names.zip r.fields)
  else if m < n then
    match restVal with
    | some v => Except.ok (names.zip (r.fields ++ List.replicate (n - m) v))
    | none => Except.error ⟨ArityTag.insufficient, r.lineNum, n, m⟩
  else
    match restKey with
    | some p =>
        Except.ok (names.zip r.fields ++ synthPairs p 0 (r.fields.drop n))
    | none => Except.error ⟨ArityTag.tooMany, r.lineNum, n, m⟩

/-- Rename a single key through the optional rename mapping: mapped names
are replaced by their output name, unmapped names pass through. -/
def renameKey (ren : List (String × String)) (k : String) : String :=
  match ren.lookup k with
  | some k2 => k2
  | none => k

/-- Modelled from the spec: field renaming applied to the keys of a
reconciled record (section 3), values untouched. -/
def applyRename (ren : List (String × String))
    (pairs : List (String × String)) : List (String × String) :=
  pairs.map (fun kv => (renameKey ren kv.1, kv.2))

/-- The synthesized rest keys a successful reconciliation appends after
the named fields (empty unless a rest key is configured and the row is
longer than the name list). -/
def restSynthKeys (names : List String) (restKey : Option String)
    (r : Line) : List String :=
  match restKey with
  | some p => (synthPairs p 0 (r.fields.drop names.length)).map Prod.fst
  | none => []

/-- Modelled from the spec: the keyed-mapper stage (section 4.2,
implemented by the external rdr_utils.dict_reader).  Per record:
reconcile against the name list (arity errors abort the run), drop the
record silently when suppression is on and its raw fields equal the name
list, apply the field renaming, then the optional handler (a none result
drops the record). -/
def keyedMap (names : List String) (restKey restVal : Option String)
    (ignoreRows : Bool) (ren : List (String × String))
    (handler : Option (List (String × String) → Option (List (String × String)))) :
    List Line → Except ArityError (List (List (String × String)))
  | [] => Except.ok []
  | r :: rest =>
    match reconcile names restKey restVal r with
    | Except.error e => Except.error e
    | Except.ok pairs =>
      if ignoreRows ∧ r.fields = names then
        keyedMap names restKey restVal ignoreRows ren handler rest
      else
        let yielded := match handler with
          | some h => h (applyRename ren pairs)
          | none => some (applyRename ren pairs)
        match yielded with
        | none => keyedMap names restKey restVal ignoreRows ren handler rest
        | some out =>
          match keyedMap names restKey restVal ignoreRows ren handler rest with
          | Except.error e => Except.error e
          | Except.ok ms => Except.ok (out :: ms)

/-- Modelled from the spec: the dict_reader pipeline (src lines 111-186
plus the external rdr_utils.dict_reader): list-mapper stage first, then
either the caller-supplied name list or a header harvested from the first
mapped record (which is consumed and not yielded), then the keyed-mapper
stage. -/
def dictReaderModel (fieldsOpt : Option (List String))
    (leadingWs trailingWs ignoreBlanks : Bool)
    (restKey restVal : Option String) (ignoreRows : Bool)
    (ren : List (String × String))
    (handler : Option (List (String × String) → Option (List (String × String))))
    (recs : List Line) : Except ArityError (List (List (String × String))) :=
  let mapped := listMapper leadingWs trailingWs ignoreBlanks recs
  match fieldsOpt with
  | some names => keyedMap names restKey restVal ignoreRows ren handler mapped
  | none =>
    match mapped with
    | [] => Except.ok []
    | hdr :: rest => keyedMap hdr.fields restKey restVal ignoreRows ren handler rest

/-- All field names contributed to the used-field set of a minimizing
writer: the include list (if any, mirroring the initialization
`set(self.include or {})` at src line 306) followed by every key of every
written mapping. -/
def fieldsUsedOf (includeOpt : Option (List String))
    (rows : List (List (String × String))) : List String :=
  (match includeOpt with
   | some i => i
   | none => []) ++ rows.foldr (fun row acc => row.map Prod.fst ++ acc) []

/-- Modelled from the spec: the minimized header order (section 3 and
4.5, implemented by the external wrtr_utils.HeaderMixin): the declared
target names filtered to those in the used-field set. -/
def minHeader (targetNames : List String) (includeOpt : Option (List String))
    (rows : List (List (String × String))) : List String :=
  targetNames.filter (fun nm => decide (nm ∈ fieldsUsedOf includeOpt rows))

/-- Modelled from the spec: value extraction for one output row (section
4.5): each header name takes the value bound in the mapping, a missing
key takes the configured rest value or the empty string. -/
def extractRow (header : List String) (restVal : Option String)
    (row : List (String × String)) : List String :=
  header.map (fun nm => ((row.lookup nm).getD (restVal.getD "")))

/-- Modelled from the spec: the complete output of a minimizing keyed
writer over its lifetime (sections 3 and 4.5, implemented by the external
wrtr_utils mixins): rows are spooled, the minimized header is computed
from the used-field set at finalization, one header row is emitted and
every spooled mapping is replayed through value extraction at the
finalized order. -/
def writeKeyedMinimize (targetNames : List String)
    (includeOpt : Option (List String)) (restVal : Option String)
    (rows : List (List (String × String))) : List (List String) :=
  let header := minHeader targetNames includeOpt rows
  header :: rows.map (extractRow header restVal)

/-- Number a list of emitted rows as the tokenizer would when reading
them back, each row occupying one raw source line. -/
def linesOfFrom (k : Nat) : List (List String) → List Line
  | [] => []
  | r :: rs => ⟨r, k⟩ :: linesOfFrom (k + 1) rs

/-- Rows of an emitted file as Line records, numbered from 1. -/
def linesOf (rows : List (List String)) : List Line :=
  linesOfFrom 1 rows

/-- Reading emitted rows back through dict_reader with all defaults: no
explicit field list (header harvested from the first row), whitespace
stripped, blanks skipped, duplicate-header suppression on, no rest
policies, no renaming, no handler. -/
def readBackKeyed (out : List (List String)) :
    Except ArityError (List (List (String × String))) :=
  dictReaderModel none false false true none none true [] none (linesOf out)

/-- Stream resource state: how often the underlying file object was
opened and closed. -/
structure FObj where
  openCount : Nat
  closeCount : Nat
deriving Repr, DecidableEq

/-- Observable constructor actions: opening the underlying stream,
closing it, and forwarding a row to the csv sink. -/
inductive Event
  | eOpen
  | eClose
  | eWriteRow (row : List String)
deriving Repr, DecidableEq

/-- State of the Writer class (src lines 236-293): the closed flag, the
managed flag returned by open_src_file, whether the _fobj and _obj
references are still held, and the underlying stream state. -/
structure WriterSt where
  closed : Bool
  managed : Bool
  fobjRef : Bool
  objRef : Bool
  stream : FObj
deriving Repr, DecidableEq

/-- Embeds Writer.close (src lines 249-256): a no-op when already closed;
otherwise sets the closed flag, clears the _fobj and _obj references, and
closes the underlying stream exactly when the writer manages it. -/
def writerClose (w : WriterSt) : WriterSt :=
  if w.closed then w
  else ⟨true, w.managed, false, false,
        if w.managed then ⟨w.stream.openCount, w.stream.closeCount + 1⟩
        else w.stream⟩

/-- Embeds Writer construction (src lines 267-293).  `managed` says
whether open_src_file opened a fresh stream (a path or buffer source)
rather than wrapping an already-open one; `sinkOk` says whether the csv
sink could be created.  Returns the events performed, the final stream
state, and the writer state (none when the constructor raised).  On sink
failure the constructor closes the stream it opened and re-raises. -/
def writerInit (managed sinkOk : Bool) : List Event × FObj × Option WriterSt :=
  if sinkOk then
    ((if managed then [Event.eOpen] else []), ⟨1, 0⟩,
     some ⟨false, managed, true, true, ⟨1, 0⟩⟩)
  else
    ((if managed then [Event.eOpen, Event.eClose] else []),
     (if managed then ⟨1, 1⟩ else ⟨1, 0⟩), none)

/-- The ways Writer.close is reached: an explicit call, a scope exit
(src lines 243-244), or teardown (src lines 246-247).  All three invoke
the same close method. -/
inductive CloseCall
  | explicitClose
  | scopeExit
  | teardown
deriving Repr, DecidableEq

/-- Run a sequence of close invocations, each kind dispatching to
writerClose. -/
def runCloseCalls : List CloseCall → WriterSt → WriterSt
  | [], w => w
  | _ :: cs, w => runCloseCalls cs (writerClose w)

/-- Rows accumulated by the underlying csv sink. -/
structure WriteSink where
  rows : List (List String)
deriving Repr, DecidableEq

/-- Embeds Writer.write (src lines 258-265): the handler, when set,
transforms the record and a none result drops it; otherwise the
(possibly transformed) record is forwarded as one row to the sink. -/
def writerWrite (handler : Option (List String → Option (List String)))
    (s : WriteSink) (data : List String) : WriteSink :=
  match handler with
  | some h =>
    match h data with
    | none => s
    | some d => ⟨s.rows ++ [d]⟩
  | none => ⟨s.rows ++ [data]⟩

/-- Construction failures of the mapped writers: the csv sink could not
be created, or the include validation failed with the offending names. -/
inductive MWErr
  | sinkFailure
  | configErr (extras : List String)
deriving Repr, DecidableEq

/-- State of a successfully constructed mapped writer. -/
structure MapWriterSt where
  fields : List String
  minimize : Bool
  includeOpt : Option (List String)
  wrtr : WriterSt
deriving Repr, DecidableEq

/-- Embeds the abstract mapped-writer construction (src lines 297-317):
the base Writer is constructed first (opening the stream), then, only
when minimize is set, the used-field set is seeded from the include list
and any include name absent from the declared fields raises a
configuration error; on any failure after the base Writer exists the
writer is closed before the exception propagates. -/
def mapWriterInit (fields : List String) (minimize : Bool)
    (includeOpt : Option (List String)) (managed sinkOk : Bool) :
    List Event × FObj × Except MWErr MapWriterSt :=
  match writerInit managed sinkOk with
  | (evts, fobj, none) => (evts, fobj, Except.error MWErr.sinkFailure)
  | (evts, fobj, some w) =>
    if minimize then
      let fieldsUsed := match includeOpt with
        | some i => i
        | none => []
      let extras := fieldsUsed.filter (fun nm => decide (nm ∉ fields))
      if extras.isEmpty then
        (evts, fobj, Except.ok ⟨fields, minimize, includeOpt, w⟩)
      else
        (evts ++ (if managed then [Event.eClose] else []),
         (writerClose w).stream, Except.error (MWErr.configErr extras))
    else
      (evts, fobj, Except.ok ⟨fields, minimize, includeOpt, w⟩)

lemma zip_map_fst {α β : Type} (l1 : List α) (l2 : List β) :
    (l1.zip l2).map Prod.fst = l1.take l2.length := by
  induction l1 generalizing l2 with
  | nil => simp
  | cons a t ih =>
    cases l2 with
    | nil => simp
    | cons b s => simp [ih]

lemma zip_map_snd {α β : Type} (l1 : List α) (l2 : List β) :
    (l1.zip l2).map Prod.snd = l2.take l1.length := by
  induction l1 generalizing l2 with
  | nil => simp
  | cons a t ih =>
    cases l2 with
    | nil => simp
    | cons b s => simp [ih]

lemma zip_take_len {α β : Type} (l1 : List α) (l2 : List β) :
    l1.zip l2 = (l1.take l2.length).zip l2 := by
  induction l1 generalizing l2 with
  | nil => simp
  | cons a t ih =>
    cases l2 with
    | nil => simp
    | cons b s => simp [ih]

lemma zip_append_right {α β : Type} (l1 : List α) (l2 l3 : List β) :
    l1.zip (l2 ++ l3) = (l1.take l2.length).zip l2 ++ (l1.drop l2.length).zip l3 := by
  induction l2 generalizing l1 with
  | nil => simp
  | cons b bs ih =>
    cases l1 with
    | nil => simp
    | cons a as => simp [ih]

lemma zip_replicate {α β : Type} (l : List α) (k : Nat) (v : β) (h : k = l.length) :
    l.zip (List.replicate k v) = l.map (fun x => (x, v)) := by
  subst h
  induction l with
  | nil => simp
  | cons a t ih => simp [List.replicate_succ, ih]

lemma synthPairs_map_snd (p : String) (s : Nat) (vs : List String) :
    (synthPairs p s vs).map Prod.snd = vs := by
  induction vs generalizing s with
  | nil => simp [synthPairs]
  | cons v t ih => simp [synthPairs, ih]

lemma lookup_mem {l : List (String × String)} {k v : String}
    (h : l.lookup k = some v) : (k, v) ∈ l := by
  induction l with
  | nil => simp [List.lookup] at h
  | cons a t ih =>
    rw [List.lookup] at h
    by_cases hk : k = a.1
    · rw [show (k == a.1) = true from beq_iff_eq.mpr hk] at h
      simp at h
      subst hk
      cases a
      simp at h ⊢
      exact Or.inl h.symm
    · rw [show (k == a.1) = false from beq_eq_false_iff_ne.mpr hk] at h
      simp
      exact Or.inr (ih h)

/-- Shape of the keys of a successful reconciliation: the name list
followed by the synthesized rest keys. -/
lemma reconcile_ok_fst {names : List String} {restKey restVal : Option String}
    {r : Line} {pairs : List (String × String)}
    (h : reconcile names restKey restVal r = Except.ok pairs) :
    pairs.map Prod.fst = names ++ restSynthKeys names restKey r := by
  simp only [reconcile] at h
  by_cases h1 : r.fields.length = names.length
  · rw [if_pos h1] at h
    have hp : pairs = names.zip r.fields := by
      cases h
      rfl
    subst hp
    rw [zip_map_fst, h1, List.take_length]
    have hdrop : r.fields.drop names.length = [] :=
      List.drop_eq_nil_of_le (le_of_eq h1)
    cases restKey with
    | none => simp [restSynthKeys]
    | some p => simp [restSynthKeys, hdrop, synthPairs]
  · rw [if_neg h1] at h
    by_cases h2 : r.fields.length < names.length
    · rw [if_pos h2] at h
      cases hrv : restVal with
      | none =>
        rw [hrv] at h
        cases h
      | some v =>
        rw [hrv] at h
        have hp : pairs = names.zip (r.fields ++ List.replicate
            (names.length - r.fields.length) v) := by
          cases h
          rfl
        subst hp
        rw [zip_map_fst]
        have hlen : (r.fields ++ List.replicate
            (names.length - r.fields.length) v).length = names.length := by
          simp
          omega
        rw [hlen, List.take_length]
        have hdrop : r.fields.drop names.length = [] :=
          List.drop_eq_nil_of_le (le_of_lt h2)
        cases restKey with
        | none => simp [restSynthKeys]
        | some p => simp [restSynthKeys, hdrop, synthPairs]
    · rw [if_neg h2] at h
      cases hrk : restKey with
      | none =>
        rw [hrk] at h
        cases h
      | some p =>
        rw [hrk] at h
        have hp : pairs = names.zip r.fields ++
            synthPairs p 0 (r.fields.drop names.length) := by
          cases h
          rfl
        subst hp
        have hle : names.length ≤ r.fields.length := by omega
        rw [List.map_append, zip_map_fst, List.take_of_length_le hle,
            restSynthKeys]

/-- Shape of the values of a successful reconciliation: the raw row
fields, padded with the rest value for the missing trailing names. -/
lemma reconcile_ok_snd {names : List String} {restKey restVal : Option String}
    {r : Line} {pairs : List (String × String)}
    (h : reconcile names restKey restVal r = Except.ok pairs) :
    pairs.map Prod.snd = r.fields ++ List.replicate
      (names.length - r.fields.length) (restVal.getD "") := by
  simp only [reconcile] at h
  by_cases h1 : r.fields.length = names.length
  · rw [if_pos h1] at h
    have hp : pairs = names.zip r.fields := by
      cases h
      rfl
    subst hp
    rw [zip_map_snd, h1.symm, List.take_length]
    have : names.length - r.fields.length = 0 := by omega
    simp [this]
  · rw [if_neg h1] at h
    by_cases h2 : r.fields.length < names.length
    · rw [if_pos h2] at h
      cases hrv : restVal with
      | none =>
        rw [hrv] at h
        cases h
      | some v =>
        rw [hrv] at h
        have hp : pairs = names.zip (r.fields ++ List.replicate
            (names.length - r.fields.length) v) := by
          cases h
          rfl
        subst hp
        rw [zip_map_snd]
        have hlen : (r.fields ++ List.replicate
            (names.length - r.fields.length) v).length ≤ names.length := by
          simp
          omega
        rw [List.take_of_length_le hlen]
        simp
    · rw [if_neg h2] at h
      cases hrk : restKey with
      | none =>
        rw [hrk] at h
        cases h
      | some p =>
        rw [hrk] at h
        have hp : pairs = names.zip r.fields ++
            synthPairs p 0 (r.fields.drop names.length) := by
          cases h
          rfl
        subst hp
        rw [List.map_append, zip_map_snd, synthPairs_map_snd,
            List.take_append_drop]
        have : names.length - r.fields.length = 0 := by omega
        simp [this]

/-- C1.  For every record reconciled against a name list of N fields
(the dict and object readers share this reconciliation, spec section
4.3): a row of M < N fields with no rest value fails with an arity error
tagged insufficient carrying the observed line number, expected count N
and actual count M; with a rest value, the missing trailing names bind to
it; a row of M > N fields with no rest key fails with an arity error
tagged too-many; with a rest key, each extra value binds under the
synthesized key built from the rest key and an index starting at 0,
appended after the named fields. -/
theorem c1_arity_policy :
    (∀ (names : List String) (restKey : Option String) (r : Line),
      r.fields.length < names.length →
      reconcile names restKey none r =
        Except.error ⟨ArityTag.insufficient, r.lineNum, names.length,
          r.fields.length⟩)
    ∧ (∀ (names : List String) (restKey : Option String) (v : String)
        (r : Line), r.fields.length < names.length →
      reconcile names restKey (some v) r =
        Except.ok (names.zip r.fields ++
          (names.drop r.fields.length).map (fun nm => (nm, v))))
    ∧ (∀ (names : List String) (restVal : Option String) (r : Line),
      names.length < r.fields.length →
      reconcile names none restVal r =
        Except.error ⟨ArityTag.tooMany, r.lineNum, names.length,
          r.fields.length⟩)
    ∧ (∀ (names : List String) (p : String) (restVal : Option String)
        (r : Line), names.length < r.fields.length →
      reconcile names (some p) restVal r =
        Except.ok (names.zip r.fields ++
          synthPairs p 0 (r.fields.drop names.length))) := by
  refine ⟨?_, ?_, ?_, ?_⟩
  · intro names restKey r hlt
    simp only [reconcile]
    rw [if_neg (by omega), if_pos hlt]
  · intro names restKey v r hlt
    simp only [reconcile]
    rw [if_neg (by omega), if_pos hlt]
    have hsplit := zip_append_right names r.fields
      (List.replicate (names.length - r.fields.length) v)
    have hrep : (names.drop r.fields.length).zip (List.replicate
        (names.length - r.fields.length) v) =
        (names.drop r.fields.length).map (fun nm => (nm, v)) :=
      zip_replicate _ _ _ (by simp)
    rw [hsplit, ← zip_take_len, hrep]
  · intro names restVal r hgt
    simp only [reconcile]
    rw [if_neg (by omega), if_neg (by omega)]
  · intro names p restVal r hgt
    simp only [reconcile]
    rw [if_neg (by omega), if_neg (by omega)]

/-- Witness for C1 at the concrete doctest inputs of dict_reader (src
lines 145-165): header a,b with row 3 on line 4, and row 3,4,5 on
line 4. -/
theorem c1_arity_policy_witness :
    ((["3"] : List String).length < (["a", "b"] : List String).length
      ∧ reconcile ["a", "b"] none none ⟨["3"], 4⟩ =
          Except.error ⟨ArityTag.insufficient, 4, 2, 1⟩)
    ∧ (reconcile ["a", "b"] none (some "7") ⟨["3"], 4⟩ =
          Except.ok [("a", "3"), ("b", "7")])
    ∧ ((["a", "b"] : List String).length <
          (["3", "4", "5"] : List String).length
      ∧ reconcile ["a", "b"] none none ⟨["3", "4", "5"], 4⟩ =
          Except.error ⟨ArityTag.tooMany, 4, 2, 3⟩)
    ∧ (reconcile ["a", "b"] (some "a") none ⟨["3", "4", "5"], 4⟩ =
          Except.ok [("a", "3"), ("b", "4"), ("a0", "5")]) := by
  refine ⟨⟨by decide, c1_arity_policy.1 ["a", "b"] none ⟨["3"], 4⟩ (by decide)⟩,
    ?_, ⟨by decide, c1_arity_policy.2.2.1 ["a", "b"] none ⟨["3", "4", "5"], 4⟩
      (by decide)⟩, ?_⟩
  · exact (c1_arity_policy.2.1 ["a", "b"] none "7" ⟨["3"], 4⟩
      (by decide)).trans (by rfl)
  · exact (c1_arity_policy.2.2.2 ["a", "b"] "a" none ⟨["3", "4", "5"], 4⟩
      (by decide)).trans (by rfl)

/-- C5.  For every successfully reconciled record, with a rename mapping
whose domain does not cover the synthesized rest keys: the emitted key
list is exactly the renamed names followed by the synthesized rest keys
(a renamed name appears only under its output name, unmapped names pass
through), and the emitted values are exactly the raw row fields padded
with the rest value — renaming leaves values untouched and no value is
dropped. -/
theorem c5_rename_invariant (names : List String)
    (restKey restVal : Option String) (ren : List (String × String))
    (r : Line) (pairs : List (String × String))
    (hok : reconcile names restKey restVal r = Except.ok pairs)
    (hdom : ∀ k ∈ restSynthKeys names restKey r, ren.lookup k = none) :
    (applyRename ren pairs).map Prod.fst =
      names.map (renameKey ren) ++ restSynthKeys names restKey r
    ∧ (applyRename ren pairs).map Prod.snd = pairs.map Prod.snd
    ∧ (applyRename ren pairs).map Prod.snd = r.fields ++ List.replicate
        (names.length - r.fields.length) (restVal.getD "") := by
  have hfst : (applyRename ren pairs).map Prod.fst =
      (pairs.map Prod.fst).map (renameKey ren) := by
    simp [applyRename, Function.comp]
  have hsnd : (applyRename ren pairs).map Prod.snd = pairs.map Prod.snd := by
    simp [applyRename, Function.comp]
  refine ⟨?_, hsnd, ?_⟩
  · rw [hfst, reconcile_ok_fst hok, List.map_append]
    have hrest : (restSynthKeys names restKey r).map (renameKey ren) =
        restSynthKeys names restKey r := by
      have := List.map_congr_left (l := restSynthKeys names restKey r)
        (f := renameKey ren) (g := id)
        (fun k hk => by simp [renameKey, hdom k hk])
      simpa using this
    rw [hrest]
  · rw [hsnd, reconcile_ok_snd hok]

/-- Witness for C5 at the concrete doctest inputs: header a,b, rename b
to c, and a rest-key row 3,4,5 on line 4 with rest key a. -/
theorem c5_rename_invariant_witness :
    (reconcile ["a", "b"] (some "a") none ⟨["3", "4", "5"], 4⟩ =
        Except.ok [("a", "3"), ("b", "4"), ("a0", "5")]
      ∧ (∀ k ∈ restSynthKeys ["a", "b"] (some "a") ⟨["3", "4", "5"], 4⟩,
          (([("b", "c")] : List (String × String))).lookup k = none))
    ∧ (applyRename [("b", "c")]
        [("a", "3"), ("b", "4"), ("a0", "5")]).map Prod.fst =
      (["a", "b"] : List String).map (renameKey [("b", "c")]) ++
        restSynthKeys ["a", "b"] (some "a") ⟨["3", "4", "5"], 4⟩
    ∧ (applyRename [("b", "c")]
        [("a", "3"), ("b", "4"), ("a0", "5")]).map Prod.snd =
      ["3", "4", "5"] := by
  have h := c5_rename_invariant ["a", "b"] (some "a") none [("b", "c")]
    ⟨["3", "4", "5"], 4⟩ [("a", "3"), ("b", "4"), ("a0", "5")]
    (by rfl) (by decide)
  exact ⟨⟨by rfl, by decide⟩, h.1, h.2.2.trans (by rfl)⟩

lemma readerGenGo_length (lastEnd : Nat) (recs : List (List String × Nat)) :
    (readerGenGo lastEnd recs).length = recs.length := by
  induction recs generalizing lastEnd with
  | nil => rfl
  | cons a rest ih =>
    cases a with
    | mk fs e => simp [readerGenGo, ih]

lemma readerGenGo_get? (recs : List (List String × Nat)) :
    ∀ (lastEnd i : Nat), i < recs.length →
    ((readerGenGo lastEnd recs).get? i).map Line.lineNum =
      ((lastEnd :: recs.map Prod.snd).get? i).map (fun n => n + 1) := by
  induction recs with
  | nil =>
    intro lastEnd i hi
    simp at hi
  | cons a rest ih =>
    intro lastEnd i hi
    cases a with
    | mk fs e =>
      cases i with
      | zero => simp [readerGenGo]
      | succ j =>
        have hj : j < rest.length := by
          simp at hi
          omega
        simpa [readerGenGo] using ih e j hj

/-- C4 (amended).  Each record yielded by reader_gen carries a line_num
equal to one plus the cumulative raw-line count the tokenizer reported
after the previous record (0 before the first record) — the raw source
line on which the record begins — not the 1-based logical record index.
The two coincide exactly when every preceding record occupies a single
raw source line, which the second conjunct states: if the tokenizer
reports cumulative count j + 1 after its record number j + 1, every
yielded line_num is the logical record index. -/
theorem c4_line_number_assignment (recs : List (List String × Nat)) (i : Nat)
    (hi : i < recs.length) :
    ((readerGenNumber recs).get? i).map Line.lineNum =
      ((0 :: recs.map Prod.snd).get? i).map (fun n => n + 1)
    ∧ ((∀ (j : Nat) (q : List String × Nat), recs.get? j = some q →
          q.2 = j + 1) →
        ((readerGenNumber recs).get? i).map Line.lineNum = some (i + 1)) := by
  constructor
  · exact readerGenGo_get? recs 0 i hi
  · intro hone
    rw [readerGenNumber, readerGenGo_get? recs 0 i hi]
    cases i with
    | zero => simp
    | succ j =>
      have hj : j < recs.length := by omega
      have hq : recs.get? j = some (recs.get ⟨j, hj⟩) := List.get?_eq_get hj
      have hsnd : (recs.map Prod.snd).get? j = some (j + 1) := by
        rw [List.get?_map, hq, Option.map_some']
        exact congrArg some (hone j (recs.get ⟨j, hj⟩) hq)
      rw [List.get?_cons_succ, hsnd]
      rfl

/-- Counterexample to C4 as stated: the tokenizer output for the CSV text
consisting of the two logical records a,"b<newline>c" and d,e — the first
record spans two raw source lines, so the tokenizer reports cumulative
line count 2 after it.  The second yielded record is logical record 2 but
reader_gen assigns it line_num 3: line_num is a raw-line position, not
the logical record index. -/
theorem c4_counterexample :
    ((readerGenNumber [(["a", "b\nc"], 2), (["d", "e"], 3)]).get? 1).map
        Line.lineNum = some 3
    ∧ ((readerGenNumber [(["a", "b\nc"], 2), (["d", "e"], 3)]).get? 1).map
        Line.lineNum ≠ some 2 := by
  constructor
  · rfl
  · intro h
    simp [readerGenNumber, readerGenGo] at h

/-- Witness for C4 at a concrete single-raw-line input: two one-line
records, the second yielded record carries line_num 2. -/
theorem c4_line_number_assignment_witness :
    (1 < ([(["x"], 1), (["y"], 2)] : List (List String × Nat)).length)
    ∧ (((readerGenNumber [(["x"], 1), (["y"], 2)]).get? 1).map Line.lineNum =
        ((0 :: ([(["x"], 1), (["y"], 2)] : List (List String × Nat)).map
          Prod.snd).get? 1).map (fun n => n + 1))
    ∧ ((∀ (j : Nat) (q : List String × Nat),
          ([(["x"], 1), (["y"], 2)] : List (List String × Nat)).get? j =
            some q → q.2 = j + 1) →
        ((readerGenNumber [(["x"], 1), (["y"], 2)]).get? 1).map Line.lineNum =
          some 2) :=
  ⟨by decide, (c4_line_number_assignment [(["x"], 1), (["y"], 2)] 1
      (by decide)).1,
    fun hone => (c4_line_number_assignment [(["x"], 1), (["y"], 2)] 1
      (by decide)).2 hone⟩

lemma runCloseCalls_fixed (cs : List CloseCall) (w : WriterSt)
    (h : writerClose w = w) : runCloseCalls cs w = w := by
  induction cs with
  | nil => rfl
  | cons c t ih => rw [runCloseCalls, h, ih]

/-- C7.  Writer close is idempotent: closing a closed writer is a no-op
in every state; and however close is reached — explicit call, scope exit
or teardown, any nonempty sequence of them — a writer that opened its
stream releases it exactly once: after the calls the writer is closed and
the stream has been opened once and closed once. -/
theorem c7_close_idempotent_release_once :
    (∀ w : WriterSt, writerClose (writerClose w) = writerClose w)
    ∧ (∀ (calls : List CloseCall) (w0 : WriterSt), calls ≠ [] →
        (writerInit true true).2.2 = some w0 →
        (runCloseCalls calls w0).closed = true
        ∧ (runCloseCalls calls w0).stream.openCount = 1
        ∧ (runCloseCalls calls w0).stream.closeCount = 1) := by
  constructor
  · intro w
    by_cases h : w.closed
    · simp [writerClose, h]
    · simp [writerClose, h]
  · intro calls w0 hne hinit
    have hw0 : w0 = ⟨false, true, true, true, ⟨1, 0⟩⟩ := by
      simp [writerInit] at hinit
      exact hinit.symm
    subst hw0
    cases calls with
    | nil => exact absurd rfl hne
    | cons c cs =>
      have h1 : writerClose ⟨false, true, true, true, ⟨1, 0⟩⟩ =
          (⟨true, true, false, false, ⟨1, 1⟩⟩ : WriterSt) := rfl
      have hfix : writerClose ⟨true, true, false, false, ⟨1, 1⟩⟩ =
          (⟨true, true, false, false, ⟨1, 1⟩⟩ : WriterSt) := rfl
      have hrun : runCloseCalls (c :: cs) ⟨false, true, true, true, ⟨1, 0⟩⟩ =
          (⟨true, true, false, false, ⟨1, 1⟩⟩ : WriterSt) := by
        rw [runCloseCalls, h1, runCloseCalls_fixed cs _ hfix]
      rw [hrun]
      exact ⟨rfl, rfl, rfl⟩

/-- Witness for C7: constructing a managed writer and closing it twice
(an explicit close followed by teardown) leaves the stream opened once
and closed once. -/
theorem c7_close_idempotent_release_once_witness :
    (([CloseCall.explicitClose, CloseCall.teardown] : List CloseCall) ≠ [])
    ∧ (writerInit true true).2.2 =
        some ⟨false, true, true, true, ⟨1, 0⟩⟩
    ∧ ((runCloseCalls [CloseCall.explicitClose, CloseCall.teardown]
          ⟨false, true, true, true, ⟨1, 0⟩⟩).closed = true
      ∧ (runCloseCalls [CloseCall.explicitClose, CloseCall.teardown]
          ⟨false, true, true, true, ⟨1, 0⟩⟩).stream.openCount = 1
      ∧ (runCloseCalls [CloseCall.explicitClose, CloseCall.teardown]
          ⟨false, true, true, true, ⟨1, 0⟩⟩).stream.closeCount = 1) :=
  ⟨by decide, rfl,
    c7_close_idempotent_release_once.2
      [CloseCall.explicitClose, CloseCall.teardown]
      ⟨false, true, true, true, ⟨1, 0⟩⟩ (by decide) rfl⟩

/-- C8.  Writer.write: with a handler returning the drop sentinel the
call is a no-op (nothing reaches the sink); with a handler returning a
transformed record, that record is forwarded as exactly one row; with no
handler the record is forwarded unchanged as exactly one row. -/
theorem c8_write_contract :
    (∀ (h : List String → Option (List String)) (s : WriteSink)
        (d : List String), h d = none → writerWrite (some h) s d = s)
    ∧ (∀ (h : List String → Option (List String)) (s : WriteSink)
        (d d2 : List String), h d = some d2 →
        writerWrite (some h) s d = ⟨s.rows ++ [d2]⟩)
    ∧ (∀ (s : WriteSink) (d : List String),
        writerWrite none s d = ⟨s.rows ++ [d]⟩) := by
  refine ⟨?_, ?_, ?_⟩
  · intro h s d hdrop
    simp [writerWrite, hdrop]
  · intro h s d d2 hsome
    simp [writerWrite, hsome]
  · intro s d
    simp [writerWrite]

/-- A concrete handler for the C8 witness: drops the row x, decorates
every other row with a trailing y. -/
def dropXHandler : List String → Option (List String) :=
  fun r => if r = ["x"] then none else some (r ++ ["y"])

/-- Witness for C8 at concrete inputs: the handler drops the row x (sink
unchanged), transforms the row z (one transformed row appended), and with
no handler the row passes through unchanged. -/
theorem c8_write_contract_witness :
    (dropXHandler ["x"] = none
      ∧ writerWrite (some dropXHandler) ⟨[["r"]]⟩ ["x"] = ⟨[["r"]]⟩)
    ∧ (dropXHandler ["z"] = some ["z", "y"]
      ∧ writerWrite (some dropXHandler) ⟨[["r"]]⟩ ["z"] =
          ⟨[["r"], ["z", "y"]]⟩)
    ∧ writerWrite none ⟨[["r"]]⟩ ["w"] = ⟨[["r"], ["w"]]⟩ :=
  ⟨⟨by decide, c8_write_contract.1 dropXHandler ⟨[["r"]]⟩ ["x"] (by decide)⟩,
    ⟨by decide,
      c8_write_contract.2.1 dropXHandler ⟨[["r"]]⟩ ["z"] ["z", "y"]
        (by decide)⟩,
    c8_write_contract.2.2 ⟨[["r"]]⟩ ["w"]⟩

/-- C9.  The include-subset validation runs only under minimize: for
every field list and every include argument — also one with names absent
from the fields — construction with minimize off succeeds (no
configuration error), whatever the stream management mode. -/
theorem c9_no_validation_without_minimize (fields : List String)
    (includeOpt : Option (List String)) (managed : Bool) :
    (mapWriterInit fields false includeOpt managed true).2.2 =
      Except.ok ⟨fields, false, includeOpt,
        ⟨false, managed, true, true, ⟨1, 0⟩⟩⟩ := by
  simp [mapWriterInit, writerInit]

/-- C10.  A managed construction that fails — the csv sink cannot be
created, or the minimize include-validation rejects — leaves the stream
it opened closed before the exception propagates: opened once, closed
once, no leak. -/
theorem c10_failed_init_closes_stream (fields : List String)
    (minimize : Bool) (includeOpt : Option (List String)) (sinkOk : Bool)
    (e : MWErr)
    (herr : (mapWriterInit fields minimize includeOpt true sinkOk).2.2 =
      Except.error e) :
    (mapWriterInit fields minimize includeOpt true sinkOk).2.1 = ⟨1, 1⟩ := by
  cases sinkOk with
  | false => simp [mapWriterInit, writerInit]
  | true =>
    cases minimize with
    | false => simp [mapWriterInit, writerInit] at herr
    | true =>
      simp only [mapWriterInit, writerInit, if_true] at herr ⊢
      by_cases hE : ((match includeOpt with
          | some i => i
          | none => []).filter (fun nm => decide (nm ∉ fields))).isEmpty
      · rw [if_pos hE] at herr
        cases herr
      · rw [if_neg hE] at herr ⊢
        rfl

/-- Witness for C10: the failing construction with declared field a and
include b errors and leaves the stream opened once and closed once. -/
theorem c10_failed_init_closes_stream_witness :
    (mapWriterInit ["a"] true (some ["b"]) true true).2.2 =
      Except.error (MWErr.configErr ["b"])
    ∧ (mapWriterInit ["a"] true (some ["b"]) true true).2.1 = ⟨1, 1⟩ :=
  ⟨rfl, c10_failed_init_closes_stream ["a"] true (some ["b"]) true
    (MWErr.configErr ["b"]) rfl⟩

/-- C6 (amended).  Constructing a minimizing writer whose include list
contains a name absent from the declared fields fails with a
configuration error at construction time, before any record is written
and before any row reaches the output; the underlying output stream,
however, is first opened (an I/O action, when the source is managed) and
closed again before the exception propagates. -/
theorem c6_include_validation_at_construction (fields incl : List String)
    (managed : Bool) (hbad : ∃ nm, nm ∈ incl ∧ nm ∉ fields) :
    (∃ extras, extras ≠ [] ∧
      (mapWriterInit fields true (some incl) managed true).2.2 =
        Except.error (MWErr.configErr extras))
    ∧ (∀ row, Event.eWriteRow row ∉
        (mapWriterInit fields true (some incl) managed true).1) := by
  obtain ⟨nm, hmem, habs⟩ := hbad
  have hmemf : nm ∈ incl.filter (fun x => decide (x ∉ fields)) :=
    List.mem_filter.mpr ⟨hmem, by simp [habs]⟩
  have hne : incl.filter (fun x => decide (x ∉ fields)) ≠ [] :=
    List.ne_nil_of_mem hmemf
  have hE : (incl.filter (fun x => decide (x ∉ fields))).isEmpty = false := by
    cases hl : incl.filter (fun x => decide (x ∉ fields)) with
    | nil => exact absurd hl hne
    | cons a t => rfl
  constructor
  · refine ⟨incl.filter (fun x => decide (x ∉ fields)), hne, ?_⟩
    simp only [mapWriterInit, writerInit, if_true]
    rw [if_neg (by rw [hE]; exact Bool.false_ne_true)]
  · intro row
    simp only [mapWriterInit, writerInit, if_true]
    rw [if_neg (by rw [hE]; exact Bool.false_ne_true)]
    cases managed <;> simp

/-- Counterexample to C6 as stated: at the concrete failing construction
(declared field a, include b, managed source) the event trace is an open
of the output stream followed by a close — stream I/O is performed before
the configuration error propagates, so the failure is not "before any
I/O"; only the stronger facts of the amended claim hold. -/
theorem c6_counterexample :
    (mapWriterInit ["a"] true (some ["b"]) true true).1 =
      [Event.eOpen, Event.eClose]
    ∧ (mapWriterInit ["a"] true (some ["b"]) true true).2.2 =
      Except.error (MWErr.configErr ["b"]) := ⟨rfl, rfl⟩

/-- Witness for C6 at the concrete failing construction: include b is
not among the declared fields a, the constructor errors with a nonempty
extras list and no row event appears in the trace. -/
theorem c6_include_validation_witness :
    (∃ nm, nm ∈ ["b"] ∧ nm ∉ (["a"] : List String))
    ∧ ((∃ extras, extras ≠ [] ∧
        (mapWriterInit ["a"] true (some ["b"]) true true).2.2 =
          Except.error (MWErr.configErr extras))
      ∧ (∀ row, Event.eWriteRow row ∉
          (mapWriterInit ["a"] true (some ["b"]) true true).1)) :=
  ⟨⟨"b", by decide, by decide⟩,
    c6_include_validation_at_construction ["a"] ["b"] true
      ⟨"b", by decide, by decide⟩⟩

/-- C3.  A record whose raw field values positionally equal the current
name list is dropped by default, silently and before any handler runs:
with suppression on, a run over any record list equals the
suppression-off run over the list with the header-valued records
pre-filtered away (so no stage, the handler included, ever sees them);
with suppression off such records are yielded as ordinary data.  The two
closed conjuncts replay the spec example with a harvested header: header
a,b with rows 1,2 then a,b then 3,4 yields the two data mappings by
default and all three records once suppression is disabled. -/
theorem c3_duplicate_header_suppression :
    (∀ (names : List String) (restKey restVal : Option String)
        (ren : List (String × String))
        (handler : Option (List (String × String) →
          Option (List (String × String))))
        (recs : List Line),
      keyedMap names restKey restVal true ren handler recs =
        keyedMap names restKey restVal false ren handler
          (recs.filter (fun r => decide (r.fields ≠ names))))
    ∧ dictReaderModel none false false true none none true [] none
        [⟨["a", "b"], 1⟩, ⟨["1", "2"], 2⟩, ⟨["a", "b"], 3⟩, ⟨["3", "4"], 4⟩] =
      Except.ok [[("a", "1"), ("b", "2")], [("a", "3"), ("b", "4")]]
    ∧ dictReaderModel none false false true none none false [] none
        [⟨["a", "b"], 1⟩, ⟨["1", "2"], 2⟩, ⟨["a", "b"], 3⟩, ⟨["3", "4"], 4⟩] =
      Except.ok [[("a", "1"), ("b", "2")], [("a", "a"), ("b", "b")],
        [("a", "3"), ("b", "4")]] := by
  refine ⟨?_, by rfl, by rfl⟩
  intro names restKey restVal ren handler recs
  induction recs with
  | nil => rfl
  | cons r rest ih =>
    by_cases hdup : r.fields = names
    · have hrec : reconcile names restKey restVal r =
          Except.ok (names.zip r.fields) := by
        simp only [reconcile]
        rw [if_pos (by rw [hdup])]
      have hfilter : (r :: rest).filter (fun x => decide (x.fields ≠ names)) =
          rest.filter (fun x => decide (x.fields ≠ names)) := by
        rw [List.filter_cons_of_neg]
        simp [hdup]
      rw [hfilter, ← ih]
      simp only [keyedMap, hrec]
      rw [if_pos ⟨trivial, hdup⟩]
    · have hfilter : (r :: rest).filter (fun x => decide (x.fields ≠ names)) =
          r :: rest.filter (fun x => decide (x.fields ≠ names)) := by
        rw [List.filter_cons_of_pos]
        simp [hdup]
      rw [hfilter]
      cases hrec : reconcile names restKey restVal r with
      | error e => simp only [keyedMap, hrec]
      | ok pairs =>
        simp only [keyedMap, hrec]
        rw [if_neg (fun h => hdup h.2),
          if_neg (fun h => by exact absurd h.1 (by simp)), ih]

lemma applyRename_nil (pairs : List (String × String)) :
    applyRename [] pairs = pairs := by
  induction pairs with
  | nil => rfl
  | cons kv t ih =>
    cases kv
    simp only [applyRename, List.map_cons] at ih ⊢
    rw [ih]
    rfl

lemma keyedMap_exact (names : List String) (restKey restVal : Option String)
    (ls : List Line)
    (hlen : ∀ l ∈ ls, l.fields.length = names.length)
    (hne : ∀ l ∈ ls, l.fields ≠ names) :
    keyedMap names restKey restVal true [] none ls =
      Except.ok (ls.map (fun l => names.zip l.fields)) := by
  induction ls with
  | nil => rfl
  | cons r rest ih =>
    have hrec : reconcile names restKey restVal r =
        Except.ok (names.zip r.fields) := by
      simp only [reconcile]
      rw [if_pos (hlen r (by simp))]
    have hih := ih (fun l hl => hlen l (by simp [hl]))
      (fun l hl => hne l (by simp [hl]))
    simp only [keyedMap, hrec]
    rw [if_neg (fun h => hne r (by simp) h.2), hih, applyRename_nil]
    rfl

lemma strip_map_id (fs : List String)
    (h : ∀ s ∈ fs, stripField false false s = s) :
    fs.map (stripField false false) = fs := by
  have := List.map_congr_left (l := fs) (f := stripField false false)
    (g := id) (fun s hs => by rw [h s hs]; rfl)
  simpa using this

lemma listMapper_id (ls : List Line)
    (hblank : ∀ l ∈ ls, l.fields ≠ [])
    (hws : ∀ l ∈ ls, ∀ s ∈ l.fields, stripField false false s = s) :
    listMapper false false true ls = ls := by
  induction ls with
  | nil => rfl
  | cons r rest ih =>
    have hih := ih (fun l hl => hblank l (by simp [hl]))
      (fun l hl => hws l (by simp [hl]))
    simp only [listMapper, List.filterMap_cons] at hih ⊢
    rw [if_neg (fun h => hblank r (by simp) h.2), hih,
      strip_map_id r.fields (hws r (by simp))]

lemma mem_fieldsUsed_none (rows : List (List (String × String)))
    (nm : String) :
    nm ∈ fieldsUsedOf none rows ↔ ∃ row ∈ rows, nm ∈ row.map Prod.fst := by
  induction rows with
  | nil => simp [fieldsUsedOf]
  | cons row rest ih =>
    simp only [fieldsUsedOf, List.nil_append, List.foldr_cons,
      List.mem_append] at ih ⊢
    constructor
    · intro h
      cases h with
      | inl h => exact ⟨row, by simp, h⟩
      | inr h =>
        obtain ⟨row2, hr2, hm⟩ := ih.mp h
        exact ⟨row2, by simp [hr2], hm⟩
    · intro h
      obtain ⟨row2, hr2, hm⟩ := h
      cases List.mem_cons.mp hr2 with
      | inl heq => exact Or.inl (heq ▸ hm)
      | inr htail => exact Or.inr (ih.mpr ⟨row2, htail, hm⟩)

lemma mem_minHeader (targetNames : List String)
    (rows : List (List (String × String))) (nm : String) :
    nm ∈ minHeader targetNames none rows ↔
      nm ∈ targetNames ∧ ∃ row ∈ rows, nm ∈ row.map Prod.fst := by
  rw [minHeader, List.mem_filter, decide_eq_true_eq, mem_fieldsUsed_none]

lemma minHeader_sublist (targetNames : List String)
    (includeOpt : Option (List String))
    (rows : List (List (String × String))) :
    List.Sublist (minHeader targetNames includeOpt rows) targetNames :=
  List.filter_sublist targetNames

lemma minHeader_nodup (targetNames : List String)
    (includeOpt : Option (List String))
    (rows : List (List (String × String))) (hnd : targetNames.Nodup) :
    (minHeader targetNames includeOpt rows).Nodup :=
  hnd.filter _

lemma lookup_zip_map (l : List String) (f : String → String) (nm : String)
    (hnd : l.Nodup) (hmem : nm ∈ l) :
    (l.zip (l.map f)).lookup nm = some (f nm) := by
  induction l with
  | nil => simp at hmem
  | cons a t ih =>
    rw [List.map_cons, List.zip_cons_cons, List.lookup]
    by_cases h : nm = a
    · rw [show (nm == a) = true from beq_iff_eq.mpr h]
      subst h
      rfl
    · rw [show (nm == a) = false from beq_eq_false_iff_ne.mpr h]
      exact ih (List.nodup_cons.mp hnd).2
        (List.mem_of_ne_of_mem h hmem)

lemma extract_of_zip_map (header : List String) (rv : Option String)
    (f : String → String) (hnd : header.Nodup) :
    extractRow header rv (header.zip (header.map f)) = header.map f := by
  unfold extractRow
  apply List.map_congr_left
  intro nm hmem
  rw [lookup_zip_map header f nm hnd hmem]
  rfl

lemma rep_keys (header : List String) (rv : Option String)
    (row : List (String × String)) :
    (header.zip (extractRow header rv row)).map Prod.fst = header := by
  rw [zip_map_fst]
  simp [extractRow]

lemma extract_length (header : List String) (rv : Option String)
    (row : List (String × String)) :
    (extractRow header rv row).length = header.length := by
  simp [extractRow]

lemma extract_strip_invariant (header : List String) (rv : Option String)
    (row : List (String × String))
    (hrow : ∀ kv ∈ row, stripField false false kv.2 = kv.2)
    (hd : stripField false false (rv.getD "") = rv.getD "") :
    ∀ s ∈ extractRow header rv row, stripField false false s = s := by
  intro s hs
  simp only [extractRow, List.mem_map] at hs
  obtain ⟨nm, _, hval⟩ := hs
  cases hlk : row.lookup nm with
  | none =>
    rw [hlk] at hval
    rw [← hval]
    exact hd
  | some v =>
    rw [hlk] at hval
    rw [← hval]
    exact hrow (nm, v) (lookup_mem hlk)

lemma linesOfFrom_map_zip (names : List String) (k : Nat)
    (rs : List (List String)) :
    (linesOfFrom k rs).map (fun l => names.zip l.fields) =
      rs.map (fun r => names.zip r) := by
  induction rs generalizing k with
  | nil => rfl
  | cons r t ih => simp [linesOfFrom, ih]

lemma mem_linesOfFrom {rs : List (List String)} {k : Nat} {l : Line}
    (h : l ∈ linesOfFrom k rs) : l.fields ∈ rs := by
  induction rs generalizing k with
  | nil => simp [linesOfFrom] at h
  | cons r t ih =>
    simp only [linesOfFrom, List.mem_cons] at h
    cases h with
    | inl h => simp [h]
    | inr h => exact List.mem_cons_of_mem _ (ih h)

lemma minHeader_nil_rows (targetNames : List String) :
    minHeader targetNames none [] = [] := by
  simp [minHeader, fieldsUsedOf]

lemma readBack_write (targetNames : List String) (rv : Option String)
    (rows : List (List (String × String)))
    (hwsN : ∀ nm ∈ targetNames, stripField false false nm = nm)
    (hwsV : ∀ row ∈ rows, ∀ kv ∈ row, stripField false false kv.2 = kv.2)
    (hwsD : stripField false false (rv.getD "") = rv.getD "")
    (hne : ∀ row ∈ rows,
      extractRow (minHeader targetNames none rows) rv row ≠
        minHeader targetNames none rows) :
    readBackKeyed (writeKeyedMinimize targetNames none rv rows) =
      Except.ok (rows.map (fun row => (minHeader targetNames none rows).zip
        (extractRow (minHeader targetNames none rows) rv row))) := by
  rcases rows with _ | ⟨row0, rest⟩
  · have hout : writeKeyedMinimize targetNames none rv [] = [[]] := by
      simp [writeKeyedMinimize, minHeader_nil_rows]
    rw [hout]
    rfl
  · have hHne : minHeader targetNames none (row0 :: rest) ≠ [] := by
      intro h
      apply hne row0 (by simp)
      rw [h]
      rfl
    have hlines : linesOf (writeKeyedMinimize targetNames none rv
        (row0 :: rest)) =
        ⟨minHeader targetNames none (row0 :: rest), 1⟩ ::
          linesOfFrom 2 ((row0 :: rest).map
            (extractRow (minHeader targetNames none (row0 :: rest)) rv)) := rfl
    have hstrip : listMapper false false true
        (⟨minHeader targetNames none (row0 :: rest), 1⟩ ::
          linesOfFrom 2 ((row0 :: rest).map
            (extractRow (minHeader targetNames none (row0 :: rest)) rv))) =
        ⟨minHeader targetNames none (row0 :: rest), 1⟩ ::
          linesOfFrom 2 ((row0 :: rest).map
            (extractRow (minHeader targetNames none (row0 :: rest)) rv)) := by
      apply listMapper_id
      · intro l hl
        cases List.mem_cons.mp hl with
        | inl h =>
          rw [h]
          exact hHne
        | inr h =>
          obtain ⟨row, hrow, heq⟩ := List.mem_map.mp (mem_linesOfFrom h)
          intro hc
          apply hHne
          have hlen0 : (extractRow (minHeader targetNames none (row0 :: rest))
              rv row).length = 0 := by
            rw [heq, hc]
            rfl
          rw [extract_length] at hlen0
          exact List.length_eq_zero.mp hlen0
      · intro l hl s hs
        cases List.mem_cons.mp hl with
        | inl h =>
          rw [h] at hs
          exact hwsN s ((minHeader_sublist targetNames none
            (row0 :: rest)).subset hs)
        | inr h =>
          obtain ⟨row, hrow, heq⟩ := List.mem_map.mp (mem_linesOfFrom h)
          exact extract_strip_invariant _ rv row (hwsV row hrow) hwsD s
            (heq ▸ hs)
    have hexact := keyedMap_exact (minHeader targetNames none (row0 :: rest))
      none none (linesOfFrom 2 ((row0 :: rest).map
        (extractRow (minHeader targetNames none (row0 :: rest)) rv)))
      (by
        intro l hl
        obtain ⟨row, hrow, heq⟩ := List.mem_map.mp (mem_linesOfFrom hl)
        rw [← heq, extract_length])
      (by
        intro l hl
        obtain ⟨row, hrow, heq⟩ := List.mem_map.mp (mem_linesOfFrom hl)
        rw [← heq]
        exact hne row hrow)
    simp only [readBackKeyed, dictReaderModel]
    rw [hlines, hstrip]
    simp only [hexact, linesOfFrom_map_zip, List.map_map]
    rfl

lemma minHeader_reps (targetNames : List String) (rv : Option String)
    (rows : List (List (String × String))) :
    minHeader targetNames none (rows.map (fun row =>
      (minHeader targetNames none rows).zip
        (extractRow (minHeader targetNames none rows) rv row))) =
      minHeader targetNames none rows := by
  rcases hrows : rows with _ | ⟨row0, rest⟩
  · rfl
  · simp only [minHeader]
    apply List.filter_congr
    intro nm hnm
    rw [decide_eq_decide, mem_fieldsUsed_none, mem_fieldsUsed_none]
    constructor
    · rintro ⟨rep, hrep, hmem⟩
      obtain ⟨row, hrow, heq⟩ := List.mem_map.mp hrep
      rw [← heq, rep_keys] at hmem
      exact ((mem_minHeader _ _ _).mp hmem).2
    · intro hex
      have hH : nm ∈ minHeader targetNames none (row0 :: rest) :=
        (mem_minHeader _ _ _).mpr ⟨hnm, hex⟩
      refine ⟨(minHeader targetNames none (row0 :: rest)).zip
        (extractRow (minHeader targetNames none (row0 :: rest)) rv row0),
        List.mem_map.mpr ⟨row0, by simp, rfl⟩, ?_⟩
      rw [rep_keys]
      exact hH

lemma write_reps (targetNames : List String) (rv : Option String)
    (rows : List (List (String × String))) (hnd : targetNames.Nodup) :
    writeKeyedMinimize targetNames none rv (rows.map (fun row =>
      (minHeader targetNames none rows).zip
        (extractRow (minHeader targetNames none rows) rv row))) =
      writeKeyedMinimize targetNames none rv rows := by
  simp only [writeKeyedMinimize]
  rw [minHeader_reps]
  congr 1
  rw [List.map_map]
  apply List.map_congr_left
  intro row hrow
  exact extract_of_zip_map _ rv _ (minHeader_nodup _ _ _ hnd)

/-- C2 (amended).  Writing mappings through a minimizing keyed writer
(include unset) and reading the output back with a default dict_reader is
a faithful round trip, provided the written data cannot collide with the
reading defaults: the declared field order has no duplicate names, every
key of every mapping is a declared field, names and values are invariant
under whitespace stripping (which the default reader applies), and no
replayed row coincides with the minimized header (which the default
reader would suppress as a duplicate header row).  Then the emitted
header is a subsequence of the declared order containing exactly the
union of keys present across the mappings; reading back yields one
mapping per written mapping, binding each header name to the originally
written value, with omitted keys filled by the configured rest value (or
the empty string); and a second write/read cycle reproduces the same
header, the same rows, and the same mappings. -/
theorem c2_minimize_roundtrip (targetNames : List String)
    (rv : Option String) (rows : List (List (String × String)))
    (hnd : targetNames.Nodup)
    (hkeys : ∀ row ∈ rows, ∀ kv ∈ row, kv.1 ∈ targetNames)
    (hwsN : ∀ nm ∈ targetNames, stripField false false nm = nm)
    (hwsV : ∀ row ∈ rows, ∀ kv ∈ row, stripField false false kv.2 = kv.2)
    (hwsD : stripField false false (rv.getD "") = rv.getD "")
    (hne : ∀ row ∈ rows,
      extractRow (minHeader targetNames none rows) rv row ≠
        minHeader targetNames none rows) :
    writeKeyedMinimize targetNames none rv rows =
      minHeader targetNames none rows ::
        rows.map (extractRow (minHeader targetNames none rows) rv)
    ∧ List.Sublist (minHeader targetNames none rows) targetNames
    ∧ (∀ nm, nm ∈ minHeader targetNames none rows ↔
        ∃ row ∈ rows, nm ∈ row.map Prod.fst)
    ∧ readBackKeyed (writeKeyedMinimize targetNames none rv rows) =
        Except.ok (rows.map (fun row => (minHeader targetNames none rows).zip
          (extractRow (minHeader targetNames none rows) rv row)))
    ∧ (∀ row ∈ rows, ∀ nm ∈ minHeader targetNames none rows,
        ((minHeader targetNames none rows).zip
          (extractRow (minHeader targetNames none rows) rv row)).lookup nm =
          some ((row.lookup nm).getD (rv.getD "")))
    ∧ writeKeyedMinimize targetNames none rv
        (rows.map (fun row => (minHeader targetNames none rows).zip
          (extractRow (minHeader targetNames none rows) rv row))) =
        writeKeyedMinimize targetNames none rv rows
    ∧ readBackKeyed (writeKeyedMinimize targetNames none rv
        (rows.map (fun row => (minHeader targetNames none rows).zip
          (extractRow (minHeader targetNames none rows) rv row)))) =
        Except.ok (rows.map (fun row => (minHeader targetNames none rows).zip
          (extractRow (minHeader targetNames none rows) rv row))) := by
  have hD := readBack_write targetNames rv rows hwsN hwsV hwsD hne
  have hF := write_reps targetNames rv rows hnd
  refine ⟨rfl, minHeader_sublist targetNames none rows, ?_, hD, ?_, hF, ?_⟩
  · intro nm
    rw [mem_minHeader]
    constructor
    · exact fun h => h.2
    · intro hex
      refine ⟨?_, hex⟩
      obtain ⟨row, hrow, hmem⟩ := hex
      obtain ⟨kv, hkv, heq⟩ := List.mem_map.mp hmem
      exact heq ▸ hkeys row hrow kv hkv
  · intro row hrow nm hmem
    exact lookup_zip_map (minHeader targetNames none rows)
      (fun x => ((row.lookup x).getD (rv.getD ""))) nm
      (minHeader_nodup _ _ _ hnd) hmem
  · rw [hF]
    exact hD

/-- Counterexample to C2 as stated: two failure modes of the unqualified
round trip.  First, writing the two mappings a:a,b:b and a:1,b:2 over
fields a,b emits a data row equal to the header; the default reader
suppresses it as a duplicate header row, so only one of the two written
mappings is replayed.  Second, writing the single mapping a:(1 followed
by a space) emits the value with trailing whitespace, which the default
reader strips, so the replayed value differs from the written one. -/
theorem c2_counterexample :
    (writeKeyedMinimize ["a", "b"] none none
        [[("a", "a"), ("b", "b")], [("a", "1"), ("b", "2")]] =
      [["a", "b"], ["a", "b"], ["1", "2"]]
    ∧ readBackKeyed (writeKeyedMinimize ["a", "b"] none none
        [[("a", "a"), ("b", "b")], [("a", "1"), ("b", "2")]]) =
      Except.ok [[("a", "1"), ("b", "2")]]
    ∧ ([[("a", "1"), ("b", "2")]] : List (List (String × String))).length ≠
      ([[("a", "a"), ("b", "b")], [("a", "1"), ("b", "2")]] :
        List (List (String × String))).length)
    ∧ (writeKeyedMinimize ["a"] none none [[("a", "1 ")]] = [["a"], ["1 "]]
    ∧ readBackKeyed (writeKeyedMinimize ["a"] none none [[("a", "1 ")]]) =
      Except.ok [[("a", "1")]]
    ∧ ("1" : String) ≠ "1 ") :=
  ⟨⟨rfl, rfl, by decide⟩, rfl, rfl, by decide⟩

/-- Witness for C2 at a concrete input satisfying every hypothesis:
fields a,b,c with rest value 7, mappings a:1 and b:2,a:3; the minimized
header is a,b, the replay fills the omitted b of the first mapping with
7, and the second cycle reproduces the output. -/
theorem c2_minimize_roundtrip_witness :
    ((["a", "b", "c"] : List String).Nodup
      ∧ (∀ row ∈ [[("a", "1")], [("b", "2"), ("a", "3")]],
          ∀ kv ∈ row, Prod.fst kv ∈ (["a", "b", "c"] : List String))
      ∧ (∀ nm ∈ (["a", "b", "c"] : List String),
          stripField false false nm = nm)
      ∧ (∀ row ∈ [[("a", "1")], [("b", "2"), ("a", "3")]],
          ∀ kv ∈ row, stripField false false (Prod.snd kv) = Prod.snd kv)
      ∧ stripField false false ((some "7").getD "") = (some "7").getD ""
      ∧ (∀ row ∈ [[("a", "1")], [("b", "2"), ("a", "3")]],
          extractRow (minHeader ["a", "b", "c"] none
            [[("a", "1")], [("b", "2"), ("a", "3")]]) (some "7") row ≠
          minHeader ["a", "b", "c"] none
            [[("a", "1")], [("b", "2"), ("a", "3")]]))
    ∧ readBackKeyed (writeKeyedMinimize ["a", "b", "c"] none (some "7")
        [[("a", "1")], [("b", "2"), ("a", "3")]]) =
      Except.ok ([[("a", "1")], [("b", "2"), ("a", "3")]].map (fun row =>
        (minHeader ["a", "b", "c"] none
          [[("a", "1")], [("b", "2"), ("a", "3")]]).zip
          (extractRow (minHeader ["a", "b", "c"] none
            [[("a", "1")], [("b", "2"), ("a", "3")]]) (some "7") row)))
    ∧ writeKeyedMinimize ["a", "b", "c"] none (some "7")
        ([[("a", "1")], [("b", "2"), ("a", "3")]].map (fun row =>
          (minHeader ["a", "b", "c"] none
            [[("a", "1")], [("b", "2"), ("a", "3")]]).zip
          (extractRow (minHeader ["a", "b", "c"] none
            [[("a", "1")], [("b", "2"), ("a", "3")]]) (some "7") row))) =
      writeKeyedMinimize ["a", "b", "c"] none (some "7")
        [[("a", "1")], [("b", "2"), ("a", "3")]] := by
  have h := c2_minimize_roundtrip ["a", "b", "c"] (some "7")
    [[("a", "1")], [("b", "2"), ("a", "3")]]
    (by decide) (by decide) (by decide) (by decide) (by decide) (by decide)
  exact ⟨⟨by decide, by decide, by decide, by decide, by decide, by decide⟩,
    h.2.2.2.1, h.2.2.2.2.2.1⟩

/-- Sanity check against the dict_reader doctest at src lines 151-154:
with rest value 7, the short row 3 on line 4 fills the missing b. -/
theorem doctest_rest_val :
    dictReaderModel none false false true none (some "7") true [] none
      [⟨["a", "b"], 1⟩, ⟨["1", "2"], 2⟩, ⟨["a", "b"], 3⟩, ⟨["3"], 4⟩] =
    Except.ok [[("a", "1"), ("b", "2")], [("a", "3"), ("b", "7")]] := rfl

/-- Sanity check against the dict_reader doctest at src lines 145-149:
the short row 3 on line 4 with no rest value raises the insufficient
arity error with line 4, expected 2, actual 1. -/
theorem doctest_insufficient :
    dictReaderModel none false false true none none true [] none
      [⟨["a", "b"], 1⟩, ⟨["1", "2"], 2⟩, ⟨["a", "b"], 3⟩, ⟨["3"], 4⟩] =
    Except.error ⟨ArityTag.insufficient, 4, 2, 1⟩ := rfl

/-- Sanity check against the dict_reader doctest at src lines 162-165:
rest key a binds the extra value 5 under the synthesized key a0. -/
theorem doctest_rest_key :
    dictReaderModel none false false true (some "a") none true [] none
      [⟨["a", "b"], 1⟩, ⟨["1", "2"], 2⟩, ⟨["a", "b"], 3⟩, ⟨["3", "4", "5"], 4⟩] =
    Except.ok [[("a", "1"), ("b", "2")],
      [("a", "3"), ("b", "4"), ("a0", "5")]] := rfl

/-- Sanity check against the dict_reader doctest at src lines 167-170:
renaming b to c replaces the key everywhere, values untouched. -/
theorem doctest_field_rename :
    dictReaderModel none false false true none none true [("b", "c")] none
      [⟨["a", "b"], 1⟩, ⟨["1", "2"], 2⟩, ⟨["a", "b"], 3⟩, ⟨["3", "4"], 4⟩] =
    Except.ok [[("a", "1"), ("c", "2")], [("a", "3"), ("c", "4")]] := rfl

end NxCsv
